import Mathlib

/-!
Verification of the binary-file analyzer in `src/cpp_analyzer/src/main.cpp`.

The whole engine is embedded shallowly:
  * bytes (`uint8_t`) become `Fin 256`;
  * `std::vector<uint8_t>` becomes `List (Fin 256)`;
  * the `float` arithmetic of the entropy computation is modelled over `ℝ`
    (exact real arithmetic, `log2` is `Real.logb 2`);
  * `std::map` iteration (ascending key order) becomes iteration over an
    ordered association list;
  * the filesystem is modelled by an oracle `String → Option (List Byte)`:
    `none` means the `std::ifstream` failed to open, `some buffer` means the
    whole file was read into `buffer`.
-/

set_option maxRecDepth 10000

namespace FileParser

open scoped BigOperators

/-- Byte values, the element type of the analyzed buffers (`uint8_t`). -/
abbrev Byte := Fin 256

/-- The `AnalysisResult` struct (main.cpp, lines 11-17).  `alignmentScores`
models `std::map<int,int>` as an association list in ascending key order,
which is the order `std::map` iterates in. -/
structure AnalysisResult where
  filename : String
  fileSize : Nat
  rawData : List Byte
  entropyMap : List ℝ
  alignmentScores : List (Nat × Nat)

/-- The `std::map<uint8_t,int> frequencies` built by `calculateEntropy`
(main.cpp, lines 38-41): one entry per byte value occurring in `data`
(occurrence count positive), in ascending byte order. -/
def byteFreqs (data : List Byte) : List (Byte × Nat) :=
  (List.finRange 256).filterMap fun b =>
    if 0 < data.count b then some (b, data.count b) else none

/-- `calculateEntropy` (main.cpp, lines 34-52): return `0` for an empty
buffer, otherwise loop over the frequency map accumulating
`entropy -= p * log2(p)` with `p = count / total`. -/
noncomputable def calculateEntropy (data : List Byte) : ℝ :=
  if data.isEmpty then 0
  else
    (byteFreqs data).foldl
      (fun entropy bc =>
        entropy - ((bc.2 : ℝ) / (data.length : ℝ)) *
          Real.logb 2 ((bc.2 : ℝ) / (data.length : ℝ)))
      0

/-- Little-endian reconstruction of a 4-byte window (main.cpp, lines 78-84):
`val |= data[i]; val |= data[i+1] << 8; val |= data[i+2] << 16;
val |= data[i+3] << 24`.  Since each byte is below `2^8`, the result is below
`2^32`, so the `uint32_t` never wraps and plain `Nat` arithmetic is exact. -/
def le32 (b0 b1 b2 b3 : Byte) : Nat :=
  b0.val ||| (b1.val <<< 8) ||| (b2.val <<< 16) ||| (b3.val <<< 24)

/-- The stride-4 scoring loop of `checkAlignment` (main.cpp, lines 75-88):
walk the buffer in consecutive non-overlapping 4-byte windows (`i += 4`),
stopping when fewer than 4 bytes remain, and count the windows whose
little-endian value is below `100000`. -/
def countSmallWindows : List Byte → Nat
  | b0 :: b1 :: b2 :: b3 :: rest =>
      (if le32 b0 b1 b2 b3 < 100000 then 1 else 0) + countSmallWindows rest
  | _ => 0

/-- The per-stride score computed by `checkAlignment` (main.cpp, lines
67-91): the scoring loop runs only for `align == 4` and only when
`data.size() >= 4`; every other stride keeps its initial score `0`. -/
def strideScore (data : List Byte) (align : Nat) : Nat :=
  if align = 4 then
    if 4 ≤ data.length then countSmallWindows data else 0
  else 0

/-- `checkAlignment` (main.cpp, lines 64-92): for each stride in
`{2, 4, 8}`, store its score into `result.alignmentScores`. -/
def checkAlignment (data : List Byte) : List (Nat × Nat) :=
  [2, 4, 8].map fun a => (a, strideScore data a)

/-- Specification-side view of one stride-4 window: the little-endian value
of the 4 bytes starting at offset `4 * k`, or `0` if fewer than 4 bytes
remain there. -/
def windowVal (data : List Byte) (k : Nat) : Nat :=
  match data.drop (4 * k) with
  | b0 :: b1 :: b2 :: b3 :: _ => le32 b0 b1 b2 b3
  | _ => 0

/-- The chunking loop of `analyzeFile` (main.cpp, lines 117-122): slice the
buffer into consecutive 64-byte chunks, the last chunk keeping the
remainder. -/
def chunks (l : List Byte) : List (List Byte) :=
  if h : l = [] then []
  else l.take 64 :: chunks (l.drop 64)
termination_by l.length
decreasing_by
  rw [List.length_drop]
  have hl : 0 < l.length := List.length_pos.mpr h
  omega

/-- The entropy map computed by `analyzeFile` (main.cpp, lines 117-122): one
entropy value per 64-byte chunk, in order. -/
noncomputable def entropyMap (buffer : List Byte) : List ℝ :=
  (chunks buffer).map calculateEntropy

/-- `analyzeFile` (main.cpp, lines 100-128).  `contents` is the filesystem
oracle result for `filepath`: `none` models an `std::ifstream` open failure,
`some buffer` models reading the whole file into `buffer`.

`junkFileSize` models the value of the uninitialized member on the failure
path: `AnalysisResult result;` default-initializes the struct, which
default-constructs the `std::string`, `std::vector` and `std::map` members
(empty) but leaves the scalar `size_t fileSize` member with an indeterminate
value; the early `return result` at line 107 returns it unset, so reading it
later is undefined behaviour and yields an arbitrary value, modelled here by
the parameter `junkFileSize`. -/
noncomputable def analyzeFile (filepath : String) (contents : Option (List Byte))
    (junkFileSize : Nat) : AnalysisResult :=
  match contents with
  | none =>
      { filename := filepath
        fileSize := junkFileSize
        rawData := []
        entropyMap := []
        alignmentScores := [] }
  | some buffer =>
      { filename := filepath
        fileSize := buffer.length
        rawData := buffer
        entropyMap := entropyMap buffer
        alignmentScores := checkAlignment buffer }

/-- The observable outcome of `compareFiles` (main.cpp, lines 162-173):
either a size-difference report carrying both sizes and the signed delta, or
a size-match report. -/
inductive CompareOutcome where
  | diff (size1 size2 : Nat) (delta : Int)
  | sizeMatch
deriving DecidableEq

/-- `compareFiles` (main.cpp, lines 162-173): if the two file sizes differ,
report both sizes and `(long long)r2.fileSize - (long long)r1.fileSize`
(exact over `Int` for any realizable size); otherwise report a match. -/
def compareFiles (r1 r2 : AnalysisResult) : CompareOutcome :=
  if r1.fileSize ≠ r2.fileSize then
    CompareOutcome.diff r1.fileSize r2.fileSize
      ((r2.fileSize : Int) - (r1.fileSize : Int))
  else
    CompareOutcome.sizeMatch

/-- The observable outcome of one run of `main` (main.cpp, lines 175-192):
the process exit code, whether the usage message was written to the error
stream, which reports were rendered to standard output, and the comparison
outcome when a second path was given. -/
structure MainOutcome where
  exitCode : Nat
  usageErrorEmitted : Bool
  printedReports : List AnalysisResult
  comparison : Option CompareOutcome

/-- `main` (main.cpp, lines 175-192).  `args` is `argv[1..]` (so `argc < 2`
is `args = []`), `fs` is the filesystem oracle and `junk` the indeterminate
value of any uninitialized `fileSize` (see `analyzeFile`).  With no
argument: usage message to the error stream, exit code `1`, nothing
analyzed.  Otherwise: analyze and print the first file, optionally analyze
the second file and print the size comparison, exit code `0`. -/
noncomputable def mainProgram (args : List String)
    (fs : String → Option (List Byte)) (junk : Nat) : MainOutcome :=
  match args with
  | [] =>
      { exitCode := 1
        usageErrorEmitted := true
        printedReports := []
        comparison := none }
  | [p] =>
      { exitCode := 0
        usageErrorEmitted := false
        printedReports := [analyzeFile p (fs p) junk]
        comparison := none }
  | p :: p2 :: _ =>
      { exitCode := 0
        usageErrorEmitted := false
        printedReports := [analyzeFile p (fs p) junk]
        comparison := some (compareFiles (analyzeFile p (fs p) junk)
          (analyzeFile p2 (fs p2) junk)) }

/-! ## Helper lemmas about the chunking loop -/

lemma chunks_nil : chunks ([] : List Byte) = [] := by
  rw [chunks]
  rfl

lemma chunks_ne_nil (l : List Byte) (h : l ≠ []) :
    chunks l = l.take 64 :: chunks (l.drop 64) := by
  rw [chunks]
  simp [h]

lemma chunks_eq_nil_iff (l : List Byte) : chunks l = [] ↔ l = [] := by
  constructor
  · intro hc
    by_contra h
    rw [chunks_ne_nil l h] at hc
    exact List.cons_ne_nil _ _ hc
  · intro h
    subst h
    exact chunks_nil

lemma chunks_flatten (l : List Byte) : (chunks l).flatten = l := by
  by_cases h : l = []
  · subst h
    simp [chunks_nil]
  · rw [chunks_ne_nil l h, List.flatten_cons, chunks_flatten (l.drop 64)]
    exact List.take_append_drop 64 l
termination_by l.length
decreasing_by
  rw [List.length_drop]
  have hl : 0 < l.length := List.length_pos.mpr h
  omega

lemma chunks_length (l : List Byte) : (chunks l).length = (l.length + 63) / 64 := by
  by_cases h : l = []
  · subst h
    simp [chunks_nil]
  · rw [chunks_ne_nil l h]
    have hl : 0 < l.length := List.length_pos.mpr h
    rw [List.length_cons, chunks_length (l.drop 64), List.length_drop]
    omega
termination_by l.length
decreasing_by
  rw [List.length_drop]
  have hl : 0 < l.length := List.length_pos.mpr h
  omega

lemma mem_chunks (l c : List Byte) (hc : c ∈ chunks l) :
    c ≠ [] ∧ c.length ≤ 64 := by
  by_cases h : l = []
  · subst h
    rw [chunks_nil] at hc
    exact absurd hc (List.not_mem_nil c)
  · rw [chunks_ne_nil l h] at hc
    rcases List.mem_cons.mp hc with hc | hc
    · subst hc
      refine ⟨?_, ?_⟩
      · rw [Ne, List.take_eq_nil_iff]
        push_neg
        exact ⟨by omega, h⟩
      · rw [List.length_take]
        omega
    · exact mem_chunks (l.drop 64) c hc
termination_by l.length
decreasing_by
  rw [List.length_drop]
  have hl : 0 < l.length := List.length_pos.mpr h
  omega

lemma mem_dropLast_chunks (l c : List Byte) (hc : c ∈ (chunks l).dropLast) :
    c.length = 64 := by
  by_cases h : l = []
  · subst h
    rw [chunks_nil] at hc
    exact absurd hc (List.not_mem_nil c)
  · rw [chunks_ne_nil l h] at hc
    by_cases h2 : l.drop 64 = []
    · rw [h2, chunks_nil] at hc
      simp at hc
    · have hcn : chunks (l.drop 64) ≠ [] := by
        rw [Ne, chunks_eq_nil_iff]
        exact h2
      rw [List.dropLast_cons_of_ne_nil hcn] at hc
      rcases List.mem_cons.mp hc with hc | hc
      · subst hc
        have hl : 64 < l.length := by
          have := List.length_pos.mpr h2
          rw [List.length_drop] at this
          omega
        rw [List.length_take]
        omega
      · exact mem_dropLast_chunks (l.drop 64) c hc
termination_by l.length
decreasing_by
  rw [List.length_drop]
  have hl : 0 < l.length := List.length_pos.mpr h
  omega

/-! ## Helper lemmas about the stride-4 scoring loop -/

lemma windowVal_cons4 (b0 b1 b2 b3 : Byte) (rest : List Byte) (k : Nat) :
    windowVal (b0 :: b1 :: b2 :: b3 :: rest) (k + 1) = windowVal rest k := by
  unfold windowVal
  have h4 : 4 * (k + 1) = 4 + 4 * k := by omega
  rw [h4, ← List.drop_drop]
  rfl

lemma windowVal_cons4_zero (b0 b1 b2 b3 : Byte) (rest : List Byte) :
    windowVal (b0 :: b1 :: b2 :: b3 :: rest) 0 = le32 b0 b1 b2 b3 := by
  unfold windowVal
  rfl

lemma countSmallWindows_eq_countWindows :
    ∀ data : List Byte,
      countSmallWindows data =
        ((List.range (data.length / 4)).filter
          fun k => windowVal data k < 100000).length
  | [] => by simp [countSmallWindows]
  | [b0] => by simp [countSmallWindows]
  | [b0, b1] => by simp [countSmallWindows]
  | [b0, b1, b2] => by simp [countSmallWindows]
  | b0 :: b1 :: b2 :: b3 :: rest => by
    have ih := countSmallWindows_eq_countWindows rest
    have hlen : (b0 :: b1 :: b2 :: b3 :: rest).length = rest.length + 4 := by
      simp
    have hdiv : (rest.length + 4) / 4 = rest.length / 4 + 1 :=
      Nat.add_div_right rest.length (by omega)
    rw [countSmallWindows, ih, hlen, hdiv, List.range_succ_eq_map]
    rw [List.filter_cons, List.filter_map]
    have hw0 : windowVal (b0 :: b1 :: b2 :: b3 :: rest) 0 = le32 b0 b1 b2 b3 :=
      windowVal_cons4_zero b0 b1 b2 b3 rest
    have hwmap :
        ((fun k => decide (windowVal (b0 :: b1 :: b2 :: b3 :: rest) k < 100000))
          ∘ Nat.succ) =
        fun k => decide (windowVal rest k < 100000) := by
      funext k
      simp only [Function.comp_apply, Nat.succ_eq_add_one,
        windowVal_cons4 b0 b1 b2 b3 rest k]
    rw [hwmap, hw0]
    by_cases hv : le32 b0 b1 b2 b3 < 100000
    · simp [hv] <;> omega
    · simp [hv]

/-! ## Helper lemmas about the entropy computation -/

/-- The chunk-relative probability of byte value `b`, the specification
quantity `p(b) = count[b] / n`. -/
noncomputable def prob (data : List Byte) (b : Byte) : ℝ :=
  (data.count b : ℝ) / (data.length : ℝ)

/-- The key set of the frequency map: byte values with positive count. -/
def freqSupport (data : List Byte) : Finset Byte :=
  Finset.univ.filter fun b : Byte => 0 < data.count b

lemma mem_freqSupport (data : List Byte) (b : Byte) :
    b ∈ freqSupport data ↔ 0 < data.count b := by
  simp [freqSupport]

lemma foldl_sub_eq {α : Type} (f : α → ℝ) :
    ∀ (l : List α) (a : ℝ),
      l.foldl (fun acc x => acc - f x) a = a - (l.map f).sum
  | [], a => by simp
  | x :: l, a => by
    rw [List.foldl_cons, foldl_sub_eq f l (a - f x), List.map_cons,
      List.sum_cons]
    ring

lemma filterMap_count_map_sum (data : List Byte) (f : Byte → Nat → ℝ) :
    ∀ l : List Byte,
      ((l.filterMap fun b =>
          if 0 < data.count b then some (b, data.count b) else none).map
        fun bc => f bc.1 bc.2).sum
      = (l.map fun b => if 0 < data.count b then f b (data.count b) else 0).sum
  | [] => by simp
  | b :: l => by
    by_cases hb : 0 < data.count b
    · simp only [List.filterMap_cons, if_pos hb, List.map_cons, List.sum_cons,
        filterMap_count_map_sum data f l]
    · simp only [List.filterMap_cons, if_neg hb, List.map_cons, List.sum_cons,
        filterMap_count_map_sum data f l, zero_add]

lemma sum_byteFreqs (data : List Byte) (f : Byte → Nat → ℝ) :
    ((byteFreqs data).map fun bc => f bc.1 bc.2).sum
      = ∑ b ∈ freqSupport data, f b (data.count b) := by
  unfold byteFreqs freqSupport
  rw [filterMap_count_map_sum data f (List.finRange 256), ← Fin.sum_univ_def,
    Finset.sum_filter]

lemma calculateEntropy_eq_neg_sum (data : List Byte) (h : data ≠ []) :
    calculateEntropy data
      = -∑ b ∈ freqSupport data,
          prob data b * Real.logb 2 (prob data b) := by
  unfold calculateEntropy
  rw [if_neg (by simpa [List.isEmpty_iff] using h)]
  rw [foldl_sub_eq
    (fun bc : Byte × Nat => ((bc.2 : ℝ) / (data.length : ℝ)) *
      Real.logb 2 ((bc.2 : ℝ) / (data.length : ℝ)))
    (byteFreqs data) 0]
  rw [zero_sub]
  congr 1
  rw [sum_byteFreqs data
    (fun _ c => ((c : ℝ) / (data.length : ℝ)) *
      Real.logb 2 ((c : ℝ) / (data.length : ℝ)))]
  rfl

lemma length_cast_pos (data : List Byte) (h : data ≠ []) :
    (0 : ℝ) < (data.length : ℝ) := by
  exact_mod_cast List.length_pos.mpr h

lemma prob_pos (data : List Byte) (h : data ≠ []) (b : Byte)
    (hb : b ∈ freqSupport data) : 0 < prob data b := by
  rw [mem_freqSupport] at hb
  exact div_pos (by exact_mod_cast hb) (length_cast_pos data h)

lemma prob_le_one (data : List Byte) (h : data ≠ []) (b : Byte) :
    prob data b ≤ 1 := by
  rw [prob, div_le_one (length_cast_pos data h)]
  exact_mod_cast List.count_le_length b data

lemma sum_count_freqSupport (data : List Byte) :
    ∑ b ∈ freqSupport data, (data.count b : ℝ) = (data.length : ℝ) := by
  have h1 : ∑ b ∈ freqSupport data, data.count b = data.length := by
    unfold freqSupport
    rw [Finset.sum_filter_of_ne (fun b _ hb => Nat.pos_of_ne_zero hb)]
    have h2 := Multiset.sum_count_eq_card (s := (Finset.univ : Finset Byte))
      (m := (data : Multiset Byte)) (fun a _ => Finset.mem_univ a)
    simpa [Multiset.coe_count] using h2
  exact_mod_cast congrArg (Nat.cast : Nat → ℝ) h1

lemma sum_prob (data : List Byte) (h : data ≠ []) :
    ∑ b ∈ freqSupport data, prob data b = 1 := by
  unfold prob
  rw [← Finset.sum_div, sum_count_freqSupport data,
    div_self (length_cast_pos data h).ne']

lemma calculateEntropy_eq_sum_inv (data : List Byte) (h : data ≠ []) :
    calculateEntropy data
      = ∑ b ∈ freqSupport data,
          prob data b * Real.logb 2 (prob data b)⁻¹ := by
  rw [calculateEntropy_eq_neg_sum data h, ← Finset.sum_neg_distrib]
  refine Finset.sum_congr rfl fun b _ => ?_
  rw [Real.logb_inv]
  ring

lemma concaveOn_logb_two : ConcaveOn ℝ (Set.Ioi 0) (Real.logb 2) := by
  have h0 : (0 : ℝ) ≤ (Real.log 2)⁻¹ :=
    inv_nonneg.mpr (Real.log_nonneg one_le_two)
  have h := ConcaveOn.smul h0 strictConcaveOn_log_Ioi.concaveOn
  have heq : (fun x : ℝ => (Real.log 2)⁻¹ • Real.log x) = Real.logb 2 := by
    funext x
    simp [Real.logb, smul_eq_mul, div_eq_inv_mul]
  rwa [heq] at h

lemma entropy_nonneg (data : List Byte) : 0 ≤ calculateEntropy data := by
  by_cases h : data = []
  · subst h
    simp [calculateEntropy]
  · rw [calculateEntropy_eq_sum_inv data h]
    refine Finset.sum_nonneg fun b hb => ?_
    have hp := prob_pos data h b hb
    have hp1 := prob_le_one data h b
    have hinv : 1 ≤ (prob data b)⁻¹ := (one_le_inv_iff₀.mpr ⟨hp, hp1⟩)
    exact mul_nonneg hp.le (Real.logb_nonneg one_lt_two hinv)

lemma freqSupport_nonempty (data : List Byte) (h : data ≠ []) :
    (freqSupport data).Nonempty := by
  obtain ⟨b, hb⟩ := List.exists_mem_of_ne_nil data h
  exact ⟨b, (mem_freqSupport data b).mpr (List.count_pos_iff.mpr hb)⟩

lemma entropy_le_logb_card (data : List Byte) (h : data ≠ []) :
    calculateEntropy data
      ≤ Real.logb 2 ((freqSupport data).card : ℝ) := by
  rw [calculateEntropy_eq_sum_inv data h]
  have hj := ConcaveOn.le_map_sum concaveOn_logb_two
    (t := freqSupport data) (w := prob data)
    (p := fun b => (prob data b)⁻¹)
    (fun b hb => (prob_pos data h b hb).le)
    (sum_prob data h)
    (fun b hb => Set.mem_Ioi.mpr (inv_pos.mpr (prob_pos data h b hb)))
  have hsum : ∑ b ∈ freqSupport data, prob data b • (prob data b)⁻¹
      = ((freqSupport data).card : ℝ) := by
    rw [Finset.sum_congr rfl
      (fun b hb => by
        rw [smul_eq_mul, mul_inv_cancel₀ (prob_pos data h b hb).ne'])]
    rw [Finset.sum_const, nsmul_eq_mul, mul_one]
  rw [hsum] at hj
  simpa [smul_eq_mul] using hj

lemma entropy_le_logb_length (data : List Byte) (h : data ≠ []) :
    calculateEntropy data ≤ Real.logb 2 (data.length : ℝ) := by
  have h1 := entropy_le_logb_card data h
  have hsub : freqSupport data = data.toFinset := by
    ext b
    simp [freqSupport, List.count_pos_iff]
  have hcard : (freqSupport data).card ≤ data.length := by
    rw [hsub]
    exact List.toFinset_card_le data
  have hpos : 0 < ((freqSupport data).card : ℝ) := by
    exact_mod_cast (freqSupport_nonempty data h).card_pos
  exact le_trans h1
    (Real.logb_le_logb_of_le one_lt_two hpos (by exact_mod_cast hcard))

lemma logb_two_256 : Real.logb 2 (256 : ℝ) = 8 := by
  have h : (256 : ℝ) = 2 ^ (8 : ℕ) := by norm_num
  rw [h, Real.logb_pow, Real.logb_self_eq_one one_lt_two, mul_one]
  norm_num

lemma logb_two_64 : Real.logb 2 (64 : ℝ) = 6 := by
  have h : (64 : ℝ) = 2 ^ (6 : ℕ) := by norm_num
  rw [h, Real.logb_pow, Real.logb_self_eq_one one_lt_two, mul_one]
  norm_num

lemma entropy_le_eight (data : List Byte) : calculateEntropy data ≤ 8 := by
  by_cases h : data = []
  · subst h
    simp [calculateEntropy]
  · have h1 := entropy_le_logb_card data h
    have hcard : (freqSupport data).card ≤ 256 := by
      calc (freqSupport data).card
          ≤ (Finset.univ : Finset Byte).card := Finset.card_filter_le _ _
        _ = 256 := by simp
    have hpos : 0 < ((freqSupport data).card : ℝ) := by
      exact_mod_cast (freqSupport_nonempty data h).card_pos
    have h2 : Real.logb 2 ((freqSupport data).card : ℝ)
        ≤ Real.logb 2 (256 : ℝ) :=
      Real.logb_le_logb_of_le one_lt_two hpos (by exact_mod_cast hcard)
    rw [logb_two_256] at h2
    linarith

lemma entropy_le_six (data : List Byte) (h : data ≠ [])
    (h64 : data.length ≤ 64) : calculateEntropy data ≤ 6 := by
  have h1 := entropy_le_logb_length data h
  have h2 : Real.logb 2 (data.length : ℝ) ≤ Real.logb 2 (64 : ℝ) :=
    Real.logb_le_logb_of_le one_lt_two (length_cast_pos data h)
      (by exact_mod_cast h64)
  rw [logb_two_64] at h2
  linarith

/-! ## Claim theorems -/

/-- C1: for every non-empty byte sequence, `calculateEntropy` returns the
Shannon entropy `H = -Σ p(b) * log2(p(b))` over the byte values occurring
in the sequence, with `p(b) = count[b]/n`; in particular a 64-byte all-zero
chunk has entropy `0`. -/
theorem calculateEntropy_is_shannon (data : List Byte) (h : data ≠ []) :
    calculateEntropy data
      = -∑ b ∈ Finset.univ.filter (fun b : Byte => 0 < data.count b),
          ((data.count b : ℝ) / (data.length : ℝ)) *
            Real.logb 2 ((data.count b : ℝ) / (data.length : ℝ))
    ∧ calculateEntropy (List.replicate 64 (0 : Byte)) = 0 := by
  constructor
  · exact calculateEntropy_eq_neg_sum data h
  · have h64 : (List.replicate 64 (0 : Byte)) ≠ [] := by simp
    rw [calculateEntropy_eq_neg_sum _ h64]
    have hS : freqSupport (List.replicate 64 (0 : Byte)) = {0} := by
      ext b
      rw [mem_freqSupport, Finset.mem_singleton, List.count_replicate]
      by_cases hb : b = (0 : Byte)
      · subst hb
        simp
      · simp [hb, Ne.symm hb]
    rw [hS, Finset.sum_singleton]
    have hp : prob (List.replicate 64 (0 : Byte)) 0 = 1 := by
      rw [prob, List.count_replicate, List.length_replicate]
      norm_num
    rw [hp, Real.logb_one]
    norm_num

/-- C1 witness: the theorem instantiated at the one-byte buffer `[0]`. -/
theorem calculateEntropy_is_shannon_witness :
    (([0] : List Byte) ≠ [])
    ∧ (calculateEntropy [0]
        = -∑ b ∈ Finset.univ.filter
            (fun b : Byte => 0 < ([0] : List Byte).count b),
            ((([0] : List Byte).count b : ℝ) / (([0] : List Byte).length : ℝ)) *
              Real.logb 2
                ((([0] : List Byte).count b : ℝ) /
                  (([0] : List Byte).length : ℝ))
      ∧ calculateEntropy (List.replicate 64 (0 : Byte)) = 0) :=
  ⟨by simp, calculateEntropy_is_shannon [0] (by simp)⟩

/-- C3: the stride-4 alignment score counts exactly the non-overlapping
4-byte little-endian windows at offsets `0, 4, 8, ...` whose value is below
`100000`; a buffer shorter than 4 bytes scores `0`; the 8-byte buffer
encoding the little-endian `uint32` values `200000` and `5` scores `1`. -/
theorem checkAlignment_stride4 (data : List Byte) :
    strideScore data 4
        = ((List.range (data.length / 4)).filter
            fun k => windowVal data k < 100000).length
    ∧ (data.length < 4 → strideScore data 4 = 0)
    ∧ strideScore [64, 13, 3, 0, 5, 0, 0, 0] 4 = 1 := by
  refine ⟨?_, ?_, by decide⟩
  · unfold strideScore
    rw [if_pos rfl]
    by_cases h4 : 4 ≤ data.length
    · rw [if_pos h4, countSmallWindows_eq_countWindows]
    · rw [if_neg h4]
      have h0 : data.length / 4 = 0 := by omega
      rw [h0]
      rfl
  · intro hlt
    unfold strideScore
    rw [if_pos rfl, if_neg (by omega)]

/-- C3 witness: the theorem instantiated at the one-byte buffer `[1]`,
discharging the shorter-than-4-bytes hypothesis. -/
theorem checkAlignment_stride4_witness :
    (([1] : List Byte).length < 4) ∧ strideScore [1] 4 = 0 :=
  ⟨by decide, (checkAlignment_stride4 [1]).2.1 (by decide)⟩

/-- C4: strides 2 and 8 are registered in the report with score `0`, and no
entry for stride 2 or 8 ever carries a nonzero score, for every input
buffer; the report field is exactly the `checkAlignment` output. -/
theorem checkAlignment_strides_2_8 (data : List Byte) (p : String)
    (junk : Nat) :
    (2, 0) ∈ checkAlignment data
    ∧ (8, 0) ∈ checkAlignment data
    ∧ (∀ pr ∈ checkAlignment data, pr.1 = 2 ∨ pr.1 = 8 → pr.2 = 0)
    ∧ (analyzeFile p (some data) junk).alignmentScores
        = checkAlignment data := by
  have hca : checkAlignment data
      = [(2, 0), (4, strideScore data 4), (8, 0)] := rfl
  refine ⟨by rw [hca]; simp, by rw [hca]; simp, ?_, rfl⟩
  intro pr hpr h28
  rw [hca] at hpr
  rcases List.mem_cons.mp hpr with hpr | hpr
  · subst hpr
    rfl
  rcases List.mem_cons.mp hpr with hpr | hpr
  · subst hpr
    rcases h28 with h2 | h8
    · exact absurd h2 (by norm_num)
    · exact absurd h8 (by norm_num)
  rcases List.mem_cons.mp hpr with hpr | hpr
  · subst hpr
    rfl
  · exact absurd hpr (List.not_mem_nil pr)

/-- C4 witness: the theorem instantiated at the empty buffer and the stride-2
entry. -/
theorem checkAlignment_strides_2_8_witness :
    ((2, 0) ∈ checkAlignment ([] : List Byte))
    ∧ ((2, 0) : Nat × Nat).2 = 0 :=
  ⟨(checkAlignment_strides_2_8 [] "f" 0).1,
    (checkAlignment_strides_2_8 ([1] : List Byte) "f" 0).2.2.1 (2, 0)
      (by decide) (Or.inl rfl)⟩

/-- C5 evaluation: on an open failure the returned report has the filename
set and empty `rawData`, `entropyMap` and `alignmentScores`, but its
`fileSize` is the indeterminate value of the uninitialized `size_t` member
(modelled by the junk parameter, here `7`), not `0` as the claim states. -/
theorem analyzeFile_open_failure_eval :
    (analyzeFile "missing.bin" none 7).filename = "missing.bin"
    ∧ (analyzeFile "missing.bin" none 7).entropyMap = []
    ∧ (analyzeFile "missing.bin" none 7).alignmentScores = []
    ∧ (analyzeFile "missing.bin" none 7).rawData = []
    ∧ (analyzeFile "missing.bin" none 7).fileSize = 7 :=
  ⟨rfl, rfl, rfl, rfl, rfl⟩

/-- C6 evaluation: the invariant `fileSize == length(rawData)` holds on
every successful-open report, but fails on an open-failure report whenever
the indeterminate (uninitialized) `fileSize` value is nonzero. -/
theorem analyzeFile_fileSize_invariant_eval :
    (∀ (p : String) (buffer : List Byte) (junk : Nat),
        (analyzeFile p (some buffer) junk).fileSize
          = (analyzeFile p (some buffer) junk).rawData.length)
    ∧ (analyzeFile "missing.bin" none 1).fileSize
        ≠ (analyzeFile "missing.bin" none 1).rawData.length :=
  ⟨fun _ _ _ => rfl, by decide⟩

/-- C2: the analysis partitions the buffer into consecutive non-overlapping
64-byte chunks (last chunk holds the remainder, length `1..64`), computes
one entropy value per chunk in order, and the entropy map has length
`ceil(fileSize / 64)` — which is `0` for an empty buffer. -/
theorem analyzeFile_entropyMap_chunking (p : String) (buffer : List Byte)
    (junk : Nat) :
    (analyzeFile p (some buffer) junk).entropyMap
        = (chunks buffer).map calculateEntropy
    ∧ (chunks buffer).flatten = buffer
    ∧ (∀ c ∈ chunks buffer, c ≠ [] ∧ c.length ≤ 64)
    ∧ (∀ c ∈ (chunks buffer).dropLast, c.length = 64)
    ∧ (analyzeFile p (some buffer) junk).entropyMap.length
        = ((analyzeFile p (some buffer) junk).fileSize + 63) / 64
    ∧ (analyzeFile p (some ([] : List Byte)) junk).entropyMap = [] := by
  refine ⟨rfl, chunks_flatten buffer, fun c hc => mem_chunks buffer c hc,
    fun c hc => mem_dropLast_chunks buffer c hc, ?_, ?_⟩
  · show (entropyMap buffer).length = (buffer.length + 63) / 64
    rw [entropyMap, List.length_map, chunks_length]
  · show entropyMap [] = []
    rw [entropyMap, chunks_nil]
    rfl

/-- C2 witness: the theorem instantiated at the two-byte buffer `[1, 2]`,
whose single chunk is the buffer itself. -/
theorem analyzeFile_entropyMap_chunking_witness :
    ([1, 2] ∈ chunks ([1, 2] : List Byte))
    ∧ (([1, 2] : List Byte) ≠ [] ∧ ([1, 2] : List Byte).length ≤ 64) := by
  have hchunks : chunks ([1, 2] : List Byte) = [[1, 2]] := by
    rw [chunks_ne_nil _ (by simp)]
    have hd : List.drop 64 ([1, 2] : List Byte) = [] := rfl
    have ht : List.take 64 ([1, 2] : List Byte) = [1, 2] := rfl
    rw [ht, hd, chunks_nil]
  have hmem : [1, 2] ∈ chunks ([1, 2] : List Byte) := by
    rw [hchunks]
    exact List.mem_singleton.mpr rfl
  exact ⟨hmem, (analyzeFile_entropyMap_chunking "f" [1, 2] 0).2.2.1 [1, 2] hmem⟩

/-- C7: for a non-empty input buffer the entropy map is non-empty and every
entropy value in it lies in the closed interval `[0, 8]`. -/
theorem entropyMap_values_in_range (buffer : List Byte) (h : buffer ≠ []) :
    entropyMap buffer ≠ []
    ∧ ∀ e ∈ entropyMap buffer, 0 ≤ e ∧ e ≤ 8 := by
  constructor
  · rw [entropyMap, Ne, List.map_eq_nil_iff, chunks_eq_nil_iff]
    exact h
  · intro e he
    rw [entropyMap] at he
    obtain ⟨c, hc, rfl⟩ := List.mem_map.mp he
    exact ⟨entropy_nonneg c, entropy_le_eight c⟩

/-- C7 witness: the theorem instantiated at the one-byte buffer `[0]`. -/
theorem entropyMap_values_in_range_witness :
    (([0] : List Byte) ≠ [])
    ∧ (entropyMap ([0] : List Byte) ≠ []
      ∧ ∀ e ∈ entropyMap ([0] : List Byte), 0 ≤ e ∧ e ≤ 8) :=
  ⟨by simp, entropyMap_values_in_range [0] (by simp)⟩

/-- C8: the differential comparator reports both sizes and the signed delta
`size2 - size1` when the sizes differ, and reports equality when they match;
sizes `100` and `220` yield the delta `+120`. -/
theorem compareFiles_size_delta (r1 r2 : AnalysisResult) :
    (r1.fileSize ≠ r2.fileSize →
        compareFiles r1 r2
          = CompareOutcome.diff r1.fileSize r2.fileSize
              ((r2.fileSize : Int) - (r1.fileSize : Int)))
    ∧ (r1.fileSize = r2.fileSize →
        compareFiles r1 r2 = CompareOutcome.sizeMatch)
    ∧ compareFiles ⟨"a", 100, [], [], []⟩ ⟨"b", 220, [], [], []⟩
        = CompareOutcome.diff 100 220 120
    ∧ compareFiles ⟨"a", 100, [], [], []⟩ ⟨"b", 100, [], [], []⟩
        = CompareOutcome.sizeMatch := by
  refine ⟨fun hne => ?_, fun heq => ?_, by decide, by decide⟩
  · rw [compareFiles, if_pos hne]
  · rw [compareFiles, if_neg (by simp [heq])]

/-- C8 witness: the theorem instantiated at two concrete reports of sizes
`100` and `220`. -/
theorem compareFiles_size_delta_witness :
    ((⟨"a", 100, [], [], []⟩ : AnalysisResult).fileSize
        ≠ (⟨"b", 220, [], [], []⟩ : AnalysisResult).fileSize)
    ∧ compareFiles ⟨"a", 100, [], [], []⟩ ⟨"b", 220, [], [], []⟩
        = CompareOutcome.diff 100 220 120 :=
  ⟨by decide,
    (compareFiles_size_delta ⟨"a", 100, [], [], []⟩
      ⟨"b", 220, [], [], []⟩).1 (by decide)⟩

/-- C9: with no file-path argument the program emits the usage message to
the error stream, prints no analysis, and exits with status `1`; with at
least one argument it exits with status `0` whatever the filesystem oracle
returns — in particular also when a file fails to open. -/
theorem mainProgram_exit_codes (fs : String → Option (List Byte))
    (junk : Nat) :
    (mainProgram [] fs junk).exitCode = 1
    ∧ (mainProgram [] fs junk).usageErrorEmitted = true
    ∧ (mainProgram [] fs junk).printedReports = []
    ∧ (mainProgram [] fs junk).comparison = none
    ∧ ∀ args : List String, args ≠ [] →
        (mainProgram args fs junk).exitCode = 0 := by
  refine ⟨rfl, rfl, rfl, rfl, fun args hargs => ?_⟩
  match args with
  | [] => exact absurd rfl hargs
  | [p] => rfl
  | p :: q :: rest => rfl

/-- C9 witness: the theorem instantiated at a single unopenable path with a
filesystem oracle that fails every open. -/
theorem mainProgram_exit_codes_witness :
    ((["missing.bin"] : List String) ≠ [])
    ∧ (mainProgram ["missing.bin"] (fun _ => none) 0).exitCode = 0 :=
  ⟨by simp,
    (mainProgram_exit_codes (fun _ => none) 0).2.2.2.2 ["missing.bin"]
      (by simp)⟩

/-- C10: the entropy of a non-empty `n`-byte sequence is at most `log2 n`,
and every value in an entropy map is at most `6`, because chunks are at most
64 bytes long. -/
theorem entropy_bounded_by_log2_length :
    (∀ data : List Byte, data ≠ [] →
        calculateEntropy data ≤ Real.logb 2 (data.length : ℝ))
    ∧ ∀ buffer : List Byte, ∀ e ∈ entropyMap buffer, e ≤ 6 := by
  refine ⟨fun data h => entropy_le_logb_length data h,
    fun buffer e he => ?_⟩
  rw [entropyMap] at he
  obtain ⟨c, hc, rfl⟩ := List.mem_map.mp he
  obtain ⟨hne, hlen⟩ := mem_chunks buffer c hc
  exact entropy_le_six c hne hlen

/-- C10 witness: the theorem instantiated at the one-byte buffer `[0]`. -/
theorem entropy_bounded_by_log2_length_witness :
    (([0] : List Byte) ≠ [])
    ∧ calculateEntropy [0]
        ≤ Real.logb 2 ((([0] : List Byte).length : ℝ)) :=
  ⟨by simp, entropy_bounded_by_log2_length.1 [0] (by simp)⟩

end FileParser
